import Mathlib

/-!
# pngConvert: the Windows icon container written by `main`

A shallow embedding of the ICO section of `src/main.go` (lines 17-48 and
115-183): the two fixed-layout records, their little-endian serialisation
by `binary.Write`, and the loop that builds the directory buffer `buf` and
the payload buffer `pngAll`.

Machine integers are natural numbers reduced explicitly: `uint8 x`, `uint16 x`
and `uint32 x` are Go's conversions to the unsigned types (reduction modulo
`2^8`, `2^16`, `2^32`), and unsigned arithmetic wraps the same way.
A byte is a natural number; every byte the program itself computes is below 256.

The PNG codec, the file system and the iteration order of the map `iconPath`
are outside the program: the encoder is a parameter `pngEncode`, the files and
the results of `os.Create` and `Close` are fields of `Env`, and the order in
which `range` yields the map is a parameter `order` of `icoSection`.
-/

namespace PngConvert

/-- One byte of a buffer or of a file. -/
abbrev Byte := Nat

/-- Go conversion `uint8(x)` of a non-negative integer. -/
def uint8 (x : Nat) : Nat := x % 256

/-- Go conversion `uint16(x)` of a non-negative integer. -/
def uint16 (x : Nat) : Nat := x % 65536

/-- Go conversion `uint32(x)` of a non-negative integer. -/
def uint32 (x : Nat) : Nat := x % 4294967296

/-- The record `icondir` (main.go 17-21): three `uint16` fields. -/
structure icondir where
  reserved : Nat
  imageType : Nat
  numImages : Nat
  deriving DecidableEq, Repr

/-- The record `icondirentry` (main.go 23-32): four `uint8`, two `uint16`
and two `uint32` fields. -/
structure icondirentry where
  imageWidth : Nat
  imageHeight : Nat
  numColors : Nat
  reserved : Nat
  colorPlanes : Nat
  bitsPerPixel : Nat
  sizeInBytes : Nat
  offset : Nat
  deriving DecidableEq, Repr

/-- Go `newIcondir` (main.go 34-39): zero value, then `imageType = 1` and
`numImages`. -/
def newIcondir (numImages : Nat) : icondir :=
  { reserved := 0, imageType := 1, numImages := numImages }

/-- Go `newIcondirentry` (main.go 42-48): zero value, then `colorPlanes = 1`,
`bitsPerPixel = 32`, `offset = 22`. -/
def newIcondirentry : icondirentry :=
  { imageWidth := 0, imageHeight := 0, numColors := 0, reserved := 0,
    colorPlanes := 1, bitsPerPixel := 32, sizeInBytes := 0, offset := 22 }

/-- Go `binary.LittleEndian.PutUint16`: `byte(v)`, `byte(v >> 8)`. -/
def putUint16 (v : Nat) : List Byte := [v % 256, v / 256 % 256]

/-- Go `binary.LittleEndian.PutUint32`: `byte(v)`, `byte(v >> 8)`, `byte(v >> 16)`,
`byte(v >> 24)`. -/
def putUint32 (v : Nat) : List Byte :=
  [v % 256, v / 256 % 256, v / 65536 % 256, v / 16777216 % 256]

/-- Go `binary.Write(buf, binary.LittleEndian, iconDir)` (main.go 130): the fields
in declaration order, no padding. -/
def writeIcondir (d : icondir) : List Byte :=
  putUint16 d.reserved ++ putUint16 d.imageType ++ putUint16 d.numImages

/-- Go `binary.Write(buf, binary.LittleEndian, ide)` (main.go 169): the fields in
declaration order, no padding; a `uint8` field is one byte. -/
def writeIcondirentry (e : icondirentry) : List Byte :=
  [e.imageWidth % 256, e.imageHeight % 256, e.numColors % 256, e.reserved % 256]
    ++ putUint16 e.colorPlanes ++ putUint16 e.bitsPerPixel
    ++ putUint32 e.sizeInBytes ++ putUint32 e.offset

/-- A decoded image as the loop uses it: the extent of `img.Bounds()` (`Dx()`
and `Dy()`, never negative for a decoded image) and the raster. -/
structure Image where
  Dx : Nat
  Dy : Nat
  Pix : List Nat
  deriving DecidableEq, Repr

/-- What a call `png.Encode(pngWriter, img)` followed by `pngWriter.Flush()`
leaves behind: the bytes that reached `pngBuf` and the error value returned by
`png.Encode` (`none` for `nil`). -/
structure EncodeResult where
  written : List Byte
  err : Option String
  deriving DecidableEq, Repr

/-- The variables that live across iterations of the loop at main.go 135-171. -/
structure LoopState where
  firstIteration : Bool
  globalOffset : Nat
  buf : List Byte
  pngAll : List Byte
  deriving DecidableEq, Repr

/-- One iteration of the loop body, main.go 152-170, for the decoded image `img`;
`n` is `len(iconPath)`. The value returned by `png.Encode` is discarded, as at
main.go 155. -/
def loopBody (pngEncode : Image → EncodeResult) (n : Nat) (st : LoopState)
    (img : Image) : LoopState :=
  let ide := newIcondirentry
  let pngBuf := (pngEncode img).written
  let ide := { ide with sizeInBytes := uint32 pngBuf.length }
  let ide := { ide with imageWidth := uint8 img.Dx }
  let ide := { ide with imageHeight := uint8 img.Dy }
  let ide :=
    if st.firstIteration then { ide with offset := uint32 (6 + uint32 (uint32 n * 16)) }
    else { ide with offset := st.globalOffset }
  { firstIteration := false
    globalOffset := uint32 (ide.offset + ide.sizeInBytes)
    buf := st.buf ++ writeIcondirentry ide
    pngAll := st.pngAll ++ pngBuf }

/-- The state before the first iteration, main.go 127-134: `buf` holds the
serialised header for `n = len(iconPath)` images. -/
def initState (n : Nat) : LoopState :=
  { firstIteration := true
    globalOffset := 0
    buf := writeIcondir (newIcondir (uint16 n))
    pngAll := [] }

/-- The loop at main.go 135-171 run over the decoded images in iteration order. -/
def runLoop (pngEncode : Image → EncodeResult) (n : Nat) (imgs : List Image) : LoopState :=
  imgs.foldl (loopBody pngEncode n) (initState n)

/-- The encoder: the bytes `main` writes to the ICO file (main.go 178-179,
`buf` then `pngAll`) when the table holds the images `imgs` in iteration order. -/
def encodeIco (pngEncode : Image → EncodeResult) (imgs : List Image) : List Byte :=
  let st := runLoop pngEncode imgs.length imgs
  st.buf ++ st.pngAll

/-- The table `iconPath` of main.go 116-125, as written. -/
def iconPath : List (Nat × String) :=
  [ (16, "icons/hicolor/16x16/apps/"),
    (24, "icons/hicolor/24x24/apps/"),
    (32, "icons/hicolor/32x32/apps/"),
    (48, "icons/hicolor/48x48/apps/"),
    (64, "icons/hicolor/64x64/apps/"),
    (96, "icons/hicolor/96x96/apps/"),
    (128, "icons/hicolor/128x128/apps/"),
    (256, "icons/hicolor/256x256/apps/") ]

/-- Everything outside the program that the ICO section of `main` consults. -/
structure Env where
  /-- Result of `os.Open(filepath.Join(path, outputName))`, `png.Decode` and
  `pngFile.Close()` for the directory `path`: the decoded image, or the first
  error among the three. -/
  readPng : String → Except String Image
  /-- The PNG encoder behind `png.Encode` and `Flush`. -/
  pngEncode : Image → EncodeResult
  /-- Error of `os.Create(icoName)`, if any. -/
  createErr : Option String
  /-- Error of `outputFile.Close()`, if any. -/
  closeErr : Option String

/-- How the ICO section ends: the panic value if it panicked, and the content
of the file `icoName` if `os.Create` made it. -/
structure IcoRun where
  panicked : Option String
  icoFile : Option (List Byte)
  deriving DecidableEq, Repr

/-- The loop at main.go 135-171 with its panics: `paths` are the values of
`iconPath` still to be visited. Returns the panic value or the final state. -/
def loopWithFiles (env : Env) (n : Nat) : List String → LoopState → Except String LoopState
  | [], st => .ok st
  | path :: rest, st =>
    match env.readPng path with
    | .error e => .error e
    | .ok img => loopWithFiles env n rest (loopBody env.pngEncode n st img)

/-- The ICO section of `main`, main.go 116-183. `order` is the order in which
`range iconPath` yields the entries of the map. -/
def icoSection (env : Env) (order : List (Nat × String)) : IcoRun :=
  match loopWithFiles env iconPath.length (order.map Prod.snd) (initState iconPath.length) with
  | .error e => { panicked := some e, icoFile := none }
  | .ok st =>
    match env.createErr with
    | some e => { panicked := some e, icoFile := none }
    | none =>
      { panicked := env.closeErr, icoFile := some (st.buf ++ st.pngAll) }

/-- Go leaves the iteration order of a map unspecified: `range iconPath` may
yield the entries in any order, each entry exactly once. -/
def IterationOrder (order : List (Nat × String)) : Prop := order.Perm iconPath

/-! ## Reading a container back

The program only writes containers. The functions below are the reading side
of the same layout, following the format description of the specification
(6-byte header, 16-byte entries, little-endian fields, payload located by
`offset` and `sizeInBytes`); the claims about "entry i" of a written file are
stated through them. -/

/-- Go `binary.LittleEndian.Uint16` on the first two bytes of `b`. -/
def getUint16 (b : List Byte) : Nat := b.getD 0 0 + 256 * b.getD 1 0

/-- Go `binary.LittleEndian.Uint32` on the first four bytes of `b`. -/
def getUint32 (b : List Byte) : Nat :=
  b.getD 0 0 + 256 * b.getD 1 0 + 65536 * b.getD 2 0 + 16777216 * b.getD 3 0

/-- The header record read from the first 6 bytes of `b`. -/
def readIcondir (b : List Byte) : icondir :=
  { reserved := getUint16 b
    imageType := getUint16 (b.drop 2)
    numImages := getUint16 (b.drop 4) }

/-- A directory record read from the first 16 bytes of `b`. -/
def readIcondirentry (b : List Byte) : icondirentry :=
  { imageWidth := b.getD 0 0
    imageHeight := b.getD 1 0
    numColors := b.getD 2 0
    reserved := b.getD 3 0
    colorPlanes := getUint16 (b.drop 4)
    bitsPerPixel := getUint16 (b.drop 6)
    sizeInBytes := getUint32 (b.drop 8)
    offset := getUint32 (b.drop 12) }

/-- Directory entry number `i` of a container: the record at bytes
`6 + 16 * i .. 6 + 16 * i + 15`. -/
def entryAt (file : List Byte) (i : Nat) : icondirentry :=
  readIcondirentry (file.drop (6 + 16 * i))

/-- The format's rule for a width or height byte: 0 stands for 256. -/
def decodeDim (b : Nat) : Nat := if b = 0 then 256 else b

/-! ## Closed forms used in the proofs -/

/-- Length of the payload the loop appends for `img`. -/
def payloadLen (pngEncode : Image → EncodeResult) (img : Image) : Nat :=
  (pngEncode img).written.length

/-- Sum of the payload lengths of `imgs`. -/
def payloadTotal (pngEncode : Image → EncodeResult) : List Image → Nat
  | [] => 0
  | img :: rest => payloadLen pngEncode img + payloadTotal pngEncode rest

/-- All payloads of `imgs`, one after the other. -/
def concatPayloads (pngEncode : Image → EncodeResult) : List Image → List Byte
  | [] => []
  | img :: rest => (pngEncode img).written ++ concatPayloads pngEncode rest

/-- The record the loop body writes for `img` when its offset field is `off`. -/
def entryFor (pngEncode : Image → EncodeResult) (off : Nat) (img : Image) : icondirentry :=
  { imageWidth := uint8 img.Dx, imageHeight := uint8 img.Dy, numColors := 0, reserved := 0,
    colorPlanes := 1, bitsPerPixel := 32,
    sizeInBytes := uint32 (payloadLen pngEncode img), offset := off }

/-- The records the loop writes for `imgs` when the first offset field is `off`. -/
def dirEntries (pngEncode : Image → EncodeResult) (off : Nat) : List Image → List icondirentry
  | [] => []
  | img :: rest =>
    entryFor pngEncode off img ::
      dirEntries pngEncode (uint32 (off + uint32 (payloadLen pngEncode img))) rest

/-- Serialisation of a list of directory records, in order. -/
def writeEntries : List icondirentry → List Byte
  | [] => []
  | e :: es => writeIcondirentry e ++ writeEntries es

/-- The offset field of the first record, as computed at main.go 163 for
`n = len(iconPath)`. -/
def firstOffset (n : Nat) : Nat := uint32 (6 + uint32 (uint32 n * 16))

/-- The offset field the next iteration of the loop will write from state `st`. -/
def nextOffset (n : Nat) (st : LoopState) : Nat :=
  if st.firstIteration then firstOffset n else st.globalOffset

/-- A toy encoder for concrete runs: the payload is the raster itself, and
encoding never fails. -/
def rawEncode (img : Image) : EncodeResult := { written := img.Pix, err := none }

/-- Position in a written file at which the payload of image `i` starts: after
the header, the `imgs.length` records and the payloads of the images before. -/
def payloadStart (pngEncode : Image → EncodeResult) (imgs : List Image) (i : Nat) : Nat :=
  6 + 16 * imgs.length + payloadTotal pngEncode (imgs.take i)

/-- Sum of the size fields of the first `k` directory entries of `file`. -/
def sizeSum (file : List Byte) : Nat → Nat
  | 0 => 0
  | k + 1 => sizeSum file k + (entryAt file k).sizeInBytes

/-- A square image of side `s` whose raster has `len` samples, all 7. -/
def squareImage (s len : Nat) : Image := { Dx := s, Dy := s, Pix := List.replicate len 7 }

/-- A file system holding, under each directory of `iconPath`, a square PNG of
that size with a raster of two samples; any other path cannot be opened. -/
def sampleFiles (path : String) : Except String Image :=
  match iconPath.find? (fun p => p.2 == path) with
  | some p => .ok (squareImage p.1 2)
  | none => .error "open: no such file or directory"

/-- An environment in which every file exists and nothing fails. -/
def sampleEnv : Env :=
  { readPng := sampleFiles, pngEncode := rawEncode, createErr := none, closeErr := none }

theorem writeIcondir_length (d : icondir) : (writeIcondir d).length = 6 := rfl

theorem writeIcondirentry_length (e : icondirentry) : (writeIcondirentry e).length = 16 := rfl

theorem writeEntries_length (es : List icondirentry) :
    (writeEntries es).length = 16 * es.length := by
  induction es with
  | nil => rfl
  | cons e es ih =>
    simp only [writeEntries, List.length_append, writeIcondirentry_length, ih, List.length_cons]
    omega

theorem dirEntries_length (pngEncode : Image → EncodeResult) (imgs : List Image) (off : Nat) :
    (dirEntries pngEncode off imgs).length = imgs.length := by
  induction imgs generalizing off with
  | nil => rfl
  | cons img rest ih => simp [dirEntries, ih]

theorem concatPayloads_length (pngEncode : Image → EncodeResult) (imgs : List Image) :
    (concatPayloads pngEncode imgs).length = payloadTotal pngEncode imgs := by
  induction imgs with
  | nil => rfl
  | cons img rest ih => simp [concatPayloads, payloadTotal, payloadLen, ih]

theorem getUint16_putUint16 (v : Nat) (tl : List Byte) :
    getUint16 (putUint16 v ++ tl) = uint16 v := by
  simp only [getUint16, putUint16, uint16, List.cons_append, List.nil_append, List.getD_cons_zero,
    List.getD_cons_succ]
  omega

theorem getUint32_putUint32 (v : Nat) (tl : List Byte) :
    getUint32 (putUint32 v ++ tl) = uint32 v := by
  simp only [getUint32, putUint32, uint32, List.cons_append, List.nil_append, List.getD_cons_zero,
    List.getD_cons_succ]
  omega

theorem uint32_lt (x : Nat) : uint32 x < 4294967296 := by
  unfold uint32; omega

theorem uint32_of_lt {x : Nat} (h : x < 4294967296) : uint32 x = x := by
  unfold uint32; omega

theorem readIcondirentry_write (pngEncode : Image → EncodeResult) (off : Nat) (img : Image)
    (tl : List Byte) (hoff : off < 4294967296) :
    readIcondirentry (writeIcondirentry (entryFor pngEncode off img) ++ tl)
      = entryFor pngEncode off img := by
  simp only [readIcondirentry, writeIcondirentry, entryFor, List.cons_append, List.nil_append,
    List.getD_cons_zero, List.getD_cons_succ, List.drop_succ_cons, List.drop_zero,
    List.append_assoc, putUint16, putUint32, getUint16, getUint32, uint8, uint32]
  simp only [icondirentry.mk.injEq]
  refine ⟨?_, ?_, ?_, ?_, ?_, ?_, ?_, ?_⟩ <;> first | trivial | omega

/-! ## Lemmas on the loop -/

theorem nextOffset_loopBody (pngEncode : Image → EncodeResult) (n : Nat) (st : LoopState)
    (img : Image) :
    nextOffset n (loopBody pngEncode n st img)
      = uint32 (nextOffset n st + uint32 (payloadLen pngEncode img)) := by
  cases h : st.firstIteration <;> simp [nextOffset, firstOffset, loopBody, payloadLen, h]

theorem loopBody_buf (pngEncode : Image → EncodeResult) (n : Nat) (st : LoopState)
    (img : Image) :
    (loopBody pngEncode n st img).buf
      = st.buf ++ writeIcondirentry (entryFor pngEncode (nextOffset n st) img) := by
  cases h : st.firstIteration <;>
    simp [nextOffset, firstOffset, loopBody, payloadLen, entryFor, newIcondirentry, h]

theorem loopBody_pngAll (pngEncode : Image → EncodeResult) (n : Nat) (st : LoopState)
    (img : Image) :
    (loopBody pngEncode n st img).pngAll = st.pngAll ++ (pngEncode img).written := rfl

theorem foldl_buf (pngEncode : Image → EncodeResult) (n : Nat) (imgs : List Image)
    (st : LoopState) :
    (imgs.foldl (loopBody pngEncode n) st).buf
      = st.buf ++ writeEntries (dirEntries pngEncode (nextOffset n st) imgs) := by
  induction imgs generalizing st with
  | nil => simp [dirEntries, writeEntries]
  | cons img rest ih =>
    rw [List.foldl_cons, ih, loopBody_buf, nextOffset_loopBody]
    simp [dirEntries, writeEntries]

theorem foldl_pngAll (pngEncode : Image → EncodeResult) (n : Nat) (imgs : List Image)
    (st : LoopState) :
    (imgs.foldl (loopBody pngEncode n) st).pngAll
      = st.pngAll ++ concatPayloads pngEncode imgs := by
  induction imgs generalizing st with
  | nil => simp [concatPayloads]
  | cons img rest ih =>
    rw [List.foldl_cons, ih, loopBody_pngAll]
    simp [concatPayloads]

theorem firstOffset_eq (n : Nat) : firstOffset n = uint32 (6 + 16 * n) := by
  unfold firstOffset uint32; omega

theorem runLoop_buf (pngEncode : Image → EncodeResult) (n : Nat) (imgs : List Image) :
    (runLoop pngEncode n imgs).buf
      = writeIcondir (newIcondir (uint16 n))
          ++ writeEntries (dirEntries pngEncode (firstOffset n) imgs) := by
  unfold runLoop
  rw [foldl_buf]
  rfl

theorem runLoop_pngAll (pngEncode : Image → EncodeResult) (n : Nat) (imgs : List Image) :
    (runLoop pngEncode n imgs).pngAll = concatPayloads pngEncode imgs := by
  unfold runLoop
  rw [foldl_pngAll]
  rfl

theorem encodeIco_eq (pngEncode : Image → EncodeResult) (imgs : List Image) :
    encodeIco pngEncode imgs
      = writeIcondir (newIcondir (uint16 imgs.length))
          ++ (writeEntries (dirEntries pngEncode (firstOffset imgs.length) imgs)
          ++ concatPayloads pngEncode imgs) := by
  unfold encodeIco
  simp only [runLoop_buf, runLoop_pngAll, List.append_assoc]

theorem encodeIco_length (pngEncode : Image → EncodeResult) (imgs : List Image) :
    (encodeIco pngEncode imgs).length
      = 6 + 16 * imgs.length + payloadTotal pngEncode imgs := by
  rw [encodeIco_eq]
  simp only [List.length_append, writeIcondir_length, writeEntries_length, dirEntries_length,
    concatPayloads_length]
  omega

theorem payloadTotal_take_succ (pngEncode : Image → EncodeResult) (imgs : List Image) (i : Nat)
    (img : Image) (h : imgs[i]? = some img) :
    payloadTotal pngEncode (imgs.take (i + 1))
      = payloadTotal pngEncode (imgs.take i) + payloadLen pngEncode img := by
  induction imgs generalizing i with
  | nil => simp at h
  | cons a rest ih =>
    cases i with
    | zero =>
      simp only [List.getElem?_cons_zero, Option.some.injEq] at h
      subst h
      simp [payloadTotal]
    | succ j =>
      simp only [List.getElem?_cons_succ] at h
      simp only [List.take_succ_cons, payloadTotal, ih j h]
      omega

theorem dirEntries_getElem? (pngEncode : Image → EncodeResult) (imgs : List Image)
    (off i : Nat) (img : Image) (hoff : off < 4294967296) (h : imgs[i]? = some img) :
    (dirEntries pngEncode off imgs)[i]?
      = some (entryFor pngEncode
          (uint32 (off + payloadTotal pngEncode (imgs.take i))) img) := by
  induction imgs generalizing off i with
  | nil => simp at h
  | cons a rest ih =>
    cases i with
    | zero =>
      simp only [List.getElem?_cons_zero, Option.some.injEq] at h
      subst h
      simp [dirEntries, payloadTotal, uint32_of_lt hoff]
    | succ j =>
      simp only [List.getElem?_cons_succ] at h
      simp only [dirEntries, List.getElem?_cons_succ, List.take_succ_cons, payloadTotal]
      rw [ih _ j (uint32_lt _) h]
      congr 2
      unfold uint32; omega

theorem writeEntries_drop (es : List icondirentry) (tl : List Byte) (i : Nat)
    (e : icondirentry) (h : es[i]? = some e) :
    ∃ tl2, (writeEntries es ++ tl).drop (16 * i) = writeIcondirentry e ++ tl2 := by
  induction es generalizing i with
  | nil => simp at h
  | cons a rest ih =>
    cases i with
    | zero =>
      simp only [List.getElem?_cons_zero, Option.some.injEq] at h
      subst h
      exact ⟨writeEntries rest ++ tl, by simp [writeEntries]⟩
    | succ j =>
      simp only [List.getElem?_cons_succ] at h
      obtain ⟨tl2, h2⟩ := ih j h
      refine ⟨tl2, ?_⟩
      have e16 : 16 * (j + 1) = (writeIcondirentry a).length + 16 * j := by
        rw [writeIcondirentry_length]; omega
      rw [writeEntries, List.append_assoc, e16, List.drop_append, h2]

/-- The bytes of a written file from position `6 + 16 * i` on begin with the
serialisation of record `i` of the loop. -/
theorem encodeIco_drop (pngEncode : Image → EncodeResult) (imgs : List Image) (i : Nat)
    (img : Image) (h : imgs[i]? = some img) :
    ∃ tl, (encodeIco pngEncode imgs).drop (6 + 16 * i)
      = writeIcondirentry (entryFor pngEncode
          (uint32 (6 + 16 * imgs.length + payloadTotal pngEncode (imgs.take i))) img) ++ tl := by
  have hoff : firstOffset imgs.length < 4294967296 := uint32_lt _
  have he := dirEntries_getElem? pngEncode imgs (firstOffset imgs.length) i img hoff h
  obtain ⟨tl, htl⟩ := writeEntries_drop _ (concatPayloads pngEncode imgs) i _ he
  refine ⟨tl, ?_⟩
  have e6 : 6 + 16 * i = (writeIcondir (newIcondir (uint16 imgs.length))).length + 16 * i := by
    rw [writeIcondir_length]
  rw [encodeIco_eq, e6, List.drop_append, htl]
  congr 3
  rw [firstOffset_eq]
  unfold uint32; omega

/-- Record `i` read back from a written file is the record the loop wrote. -/
theorem entryAt_encodeIco (pngEncode : Image → EncodeResult) (imgs : List Image) (i : Nat)
    (img : Image) (h : imgs[i]? = some img) :
    entryAt (encodeIco pngEncode imgs) i
      = entryFor pngEncode
          (uint32 (6 + 16 * imgs.length + payloadTotal pngEncode (imgs.take i))) img := by
  obtain ⟨tl, htl⟩ := encodeIco_drop pngEncode imgs i img h
  unfold entryAt
  rw [htl]
  exact readIcondirentry_write pngEncode _ img tl (uint32_lt _)

theorem payloadTotal_take_le (pngEncode : Image → EncodeResult) (imgs : List Image) (i : Nat) :
    payloadTotal pngEncode (imgs.take i) ≤ payloadTotal pngEncode imgs := by
  induction imgs generalizing i with
  | nil => simp [payloadTotal]
  | cons a rest ih =>
    cases i with
    | zero => simp [payloadTotal]
    | succ j =>
      simp only [List.take_succ_cons, payloadTotal]
      have := ih j
      omega

theorem concatPayloads_drop (pngEncode : Image → EncodeResult) (imgs : List Image) (i : Nat)
    (img : Image) (h : imgs[i]? = some img) :
    ∃ tl, (concatPayloads pngEncode imgs).drop (payloadTotal pngEncode (imgs.take i))
      = (pngEncode img).written ++ tl := by
  induction imgs generalizing i with
  | nil => simp at h
  | cons a rest ih =>
    cases i with
    | zero =>
      simp only [List.getElem?_cons_zero, Option.some.injEq] at h
      subst h
      exact ⟨concatPayloads pngEncode rest, by simp [concatPayloads, payloadTotal]⟩
    | succ j =>
      simp only [List.getElem?_cons_succ] at h
      obtain ⟨tl, htl⟩ := ih j h
      refine ⟨tl, ?_⟩
      simp only [List.take_succ_cons, payloadTotal, concatPayloads, payloadLen]
      rw [List.drop_append, htl]

/-- The payload of image `i` sits in the written file at `payloadStart`. -/
theorem encodeIco_payload (pngEncode : Image → EncodeResult) (imgs : List Image) (i : Nat)
    (img : Image) (h : imgs[i]? = some img) :
    ((encodeIco pngEncode imgs).drop (payloadStart pngEncode imgs i)).take
        (pngEncode img).written.length = (pngEncode img).written := by
  obtain ⟨tl, htl⟩ := concatPayloads_drop pngEncode imgs i img h
  have e : payloadStart pngEncode imgs i
      = (writeIcondir (newIcondir (uint16 imgs.length))
          ++ writeEntries (dirEntries pngEncode (firstOffset imgs.length) imgs)).length
        + payloadTotal pngEncode (imgs.take i) := by
    simp only [payloadStart, List.length_append, writeIcondir_length, writeEntries_length,
      dirEntries_length]
  rw [encodeIco_eq, ← List.append_assoc, e, List.drop_append, htl]
  simp

/-- C10. Empty input: the encoder writes exactly the six header bytes
`00 00 01 00 00 00` (reserved 0, type 1, count 0), no entry and no payload. -/
theorem C10_empty_input (pngEncode : Image → EncodeResult) :
    encodeIco pngEncode [] = [0, 0, 1, 0, 0, 0]
    ∧ (encodeIco pngEncode []).length = 6
    ∧ readIcondir (encodeIco pngEncode []) = { reserved := 0, imageType := 1, numImages := 0 }
    ∧ (runLoop pngEncode 0 []).buf = [0, 0, 1, 0, 0, 0]
    ∧ (runLoop pngEncode 0 []).pngAll = [] := by
  refine ⟨rfl, rfl, rfl, rfl, rfl⟩

/-- C9. For every image of the sequence, with decoded bounds `w x h`, the
width and height bytes of its directory entry are `w mod 256` and `h mod 256`:
a value from 1 to 255 is stored as it is, 256 is stored as 0, and for every
size of the table `iconPath` (16, 24, 32, 48, 64, 96, 128, 256) the stored byte
read under the rule "0 means 256" is the true dimension. -/
theorem C9_width_height_bytes (pngEncode : Image → EncodeResult) (imgs : List Image)
    (i : Nat) (img : Image) (h : imgs[i]? = some img) :
    (entryAt (encodeIco pngEncode imgs) i).imageWidth = img.Dx % 256
    ∧ (entryAt (encodeIco pngEncode imgs) i).imageHeight = img.Dy % 256
    ∧ (1 ≤ img.Dx ∧ img.Dx ≤ 255 → (entryAt (encodeIco pngEncode imgs) i).imageWidth = img.Dx)
    ∧ (1 ≤ img.Dy ∧ img.Dy ≤ 255 → (entryAt (encodeIco pngEncode imgs) i).imageHeight = img.Dy)
    ∧ (img.Dx = 256 → (entryAt (encodeIco pngEncode imgs) i).imageWidth = 0)
    ∧ (img.Dy = 256 → (entryAt (encodeIco pngEncode imgs) i).imageHeight = 0)
    ∧ decodeDim 0 = 256
    ∧ (img.Dx ∈ iconPath.map Prod.fst →
        decodeDim (entryAt (encodeIco pngEncode imgs) i).imageWidth = img.Dx)
    ∧ (img.Dy ∈ iconPath.map Prod.fst →
        decodeDim (entryAt (encodeIco pngEncode imgs) i).imageHeight = img.Dy) := by
  rw [entryAt_encodeIco pngEncode imgs i img h]
  simp only [entryFor, uint8]
  refine ⟨trivial, trivial, ?_, ?_, ?_, ?_, rfl, ?_, ?_⟩
  · intro hw; omega
  · intro hh; omega
  · intro hw; omega
  · intro hh; omega
  · intro hmem
    simp only [iconPath, List.map_cons, List.map_nil, List.mem_cons, List.mem_singleton,
      List.not_mem_nil, or_false] at hmem
    rcases hmem with h1 | h1 | h1 | h1 | h1 | h1 | h1 | h1 <;> rw [h1] <;> rfl
  · intro hmem
    simp only [iconPath, List.map_cons, List.map_nil, List.mem_cons, List.mem_singleton,
      List.not_mem_nil, or_false] at hmem
    rcases hmem with h1 | h1 | h1 | h1 | h1 | h1 | h1 | h1 <;> rw [h1] <;> rfl

/-- Witness of C9: a 256 x 256 image alone in the container is stored with
width and height byte 0, which reads back as 256. -/
theorem C9_width_height_bytes_witness :
    [squareImage 256 2][0]? = some (squareImage 256 2)
    ∧ (entryAt (encodeIco rawEncode [squareImage 256 2]) 0).imageWidth = 0
    ∧ decodeDim (entryAt (encodeIco rawEncode [squareImage 256 2]) 0).imageWidth = 256 :=
  have h := C9_width_height_bytes rawEncode [squareImage 256 2] 0 (squareImage 256 2) rfl
  ⟨rfl, h.2.2.2.2.1 rfl, h.2.2.2.2.2.2.2.1 (by decide)⟩

theorem payloadLen_rawEncode (s len : Nat) :
    payloadLen rawEncode (squareImage s len) = len := by
  simp [payloadLen, rawEncode, squareImage]

theorem squareImage_Dx (s len : Nat) : (squareImage s len).Dx = s := rfl

theorem squareImage_Dy (s len : Nat) : (squareImage s len).Dy = s := rfl

/-- C4. For every sequence of `N` images and every `i` with `1 ≤ i < N`, the
offset field of entry `i` is the offset field of entry `i - 1` plus the size
field of entry `i - 1`, as 32-bit unsigned values; and payloads follow one
another in directory order without padding: payload `i` starts where payload
`i - 1` ends. -/
theorem C4_sequential_offsets (pngEncode : Image → EncodeResult) (imgs : List Image)
    (i : Nat) (h1 : 1 ≤ i) (hN : i < imgs.length) :
    (entryAt (encodeIco pngEncode imgs) i).offset
      = uint32 ((entryAt (encodeIco pngEncode imgs) (i - 1)).offset
          + (entryAt (encodeIco pngEncode imgs) (i - 1)).sizeInBytes)
    ∧ ∀ prev : Image, imgs[i - 1]? = some prev →
        payloadStart pngEncode imgs i
          = payloadStart pngEncode imgs (i - 1) + (pngEncode prev).written.length := by
  obtain ⟨j, rfl⟩ : ∃ j, i = j + 1 := ⟨i - 1, by omega⟩
  have hj : imgs[j]? = some (imgs[j]) := List.getElem?_eq_getElem (by omega)
  have hi : imgs[j + 1]? = some (imgs[j + 1]) := List.getElem?_eq_getElem hN
  constructor
  · rw [Nat.add_sub_cancel, entryAt_encodeIco pngEncode imgs (j + 1) _ hi,
      entryAt_encodeIco pngEncode imgs j _ hj, payloadTotal_take_succ pngEncode imgs j _ hj]
    simp only [entryFor, uint32]
    omega
  · intro prev hprev
    rw [Nat.add_sub_cancel] at hprev ⊢
    unfold payloadStart
    rw [payloadTotal_take_succ pngEncode imgs j prev hprev]
    unfold payloadLen
    omega

/-- Witness of C4: two images of 16 x 16 and 32 x 32 with payloads of 150 and
400 bytes give entry 0 with size 150 and offset 38, entry 1 with size 400 and
offset 188, and a file of 588 bytes. -/
theorem C4_sequential_offsets_witness :
    entryAt (encodeIco rawEncode [squareImage 16 150, squareImage 32 400]) 0
        = { imageWidth := 16, imageHeight := 16, numColors := 0, reserved := 0,
            colorPlanes := 1, bitsPerPixel := 32, sizeInBytes := 150, offset := 38 }
    ∧ entryAt (encodeIco rawEncode [squareImage 16 150, squareImage 32 400]) 1
        = { imageWidth := 32, imageHeight := 32, numColors := 0, reserved := 0,
            colorPlanes := 1, bitsPerPixel := 32, sizeInBytes := 400, offset := 188 }
    ∧ (encodeIco rawEncode [squareImage 16 150, squareImage 32 400]).length = 588
    ∧ (entryAt (encodeIco rawEncode [squareImage 16 150, squareImage 32 400]) 1).offset
        = uint32 ((entryAt (encodeIco rawEncode [squareImage 16 150, squareImage 32 400]) (1 - 1)).offset
          + (entryAt (encodeIco rawEncode [squareImage 16 150, squareImage 32 400]) (1 - 1)).sizeInBytes) :=
  ⟨by rw [entryAt_encodeIco rawEncode _ 0 (squareImage 16 150) (List.getElem?_cons_zero ..)]
      simp only [entryFor, payloadLen_rawEncode, squareImage_Dx, squareImage_Dy, List.take_zero,
        payloadTotal]
      decide,
    by rw [entryAt_encodeIco rawEncode _ 1 (squareImage 32 400)
         ((List.getElem?_cons_succ ..).trans (List.getElem?_cons_zero ..))]
       simp only [entryFor, payloadLen_rawEncode, squareImage_Dx, squareImage_Dy,
         List.take_succ_cons, List.take_zero, payloadTotal]
       decide,
    by rw [encodeIco_length]
       simp only [payloadTotal, payloadLen_rawEncode, List.length_cons, List.length_nil],
    (C4_sequential_offsets rawEncode [squareImage 16 150, squareImage 32 400] 1 (by decide)
      (by decide)).1⟩

theorem readIcondir_encodeIco (pngEncode : Image → EncodeResult) (imgs : List Image) :
    readIcondir (encodeIco pngEncode imgs)
      = { reserved := 0, imageType := 1, numImages := imgs.length % 65536 } := by
  rw [encodeIco_eq]
  simp only [readIcondir, writeIcondir, newIcondir, putUint16, getUint16, uint16,
    List.cons_append, List.nil_append, List.getD_cons_zero, List.getD_cons_succ,
    List.drop_succ_cons, List.drop_zero, icondir.mk.injEq]
  refine ⟨?_, ?_, ?_⟩ <;> first | omega | decide

theorem getElem?_zero_of_ne_nil {α : Type} (l : List α) (h : l ≠ []) :
    ∃ a, l[0]? = some a := by
  cases l with
  | nil => exact absurd rfl h
  | cons a _ => exact ⟨a, List.getElem?_cons_zero ..⟩

/-- The first offset field of a non-empty container, for every length. -/
theorem first_offset_field (pngEncode : Image → EncodeResult) (imgs : List Image)
    (hne : imgs ≠ []) :
    (entryAt (encodeIco pngEncode imgs) 0).offset = uint32 (6 + 16 * imgs.length) := by
  obtain ⟨a, ha⟩ := getElem?_zero_of_ne_nil imgs hne
  rw [entryAt_encodeIco pngEncode imgs 0 a ha]
  simp [entryFor, payloadTotal]

/-- C3 fails as stated. With 2^28 images the first offset field is 6: the
product `N * 16` wraps around in 32 bits, and 6 is not `6 + N * 16`. -/
theorem C3_counterexample :
    List.replicate 268435456 (squareImage 1 1) ≠ []
    ∧ (entryAt (encodeIco rawEncode (List.replicate 268435456 (squareImage 1 1))) 0).offset = 6
    ∧ (entryAt (encodeIco rawEncode (List.replicate 268435456 (squareImage 1 1))) 0).offset
        ≠ 6 + (List.replicate 268435456 (squareImage 1 1)).length * 16 := by
  have hne : List.replicate 268435456 (squareImage 1 1) ≠ [] := by
    intro h
    have := congrArg List.length h
    rw [List.length_replicate] at this
    exact absurd this (by decide)
  refine ⟨hne, ?_, ?_⟩
  · rw [first_offset_field rawEncode _ hne, List.length_replicate]
    decide
  · rw [first_offset_field rawEncode _ hne, List.length_replicate]
    decide

/-- C3, amended. For every non-empty sequence of `N` images with `N < 2^28`
(so that `6 + N * 16` fits in 32 bits), the offset field of the first directory
entry is `6 + N * 16`, whatever the images and their payloads are; it is the
default 22 of `newIcondirentry` only when `N = 1`. -/
theorem C3_first_offset (pngEncode : Image → EncodeResult) (imgs : List Image)
    (hne : imgs ≠ []) (hN : imgs.length < 268435456) :
    (entryAt (encodeIco pngEncode imgs) 0).offset = 6 + imgs.length * 16
    ∧ ((entryAt (encodeIco pngEncode imgs) 0).offset = newIcondirentry.offset
        ↔ imgs.length = 1) := by
  rw [first_offset_field pngEncode imgs hne]
  simp only [uint32, newIcondirentry]
  constructor
  · omega
  · constructor <;> intro h <;> omega

/-- Witness of C3: two images give a first offset of 38, not 22. -/
theorem C3_first_offset_witness :
    [squareImage 16 150, squareImage 32 400] ≠ []
    ∧ [squareImage 16 150, squareImage 32 400].length < 268435456
    ∧ (entryAt (encodeIco rawEncode [squareImage 16 150, squareImage 32 400]) 0).offset
        = 6 + [squareImage 16 150, squareImage 32 400].length * 16
    ∧ 6 + [squareImage 16 150, squareImage 32 400].length * 16 = 38 :=
  ⟨List.cons_ne_nil _ _, by decide,
    (C3_first_offset rawEncode [squareImage 16 150, squareImage 32 400]
      (List.cons_ne_nil _ _) (by decide)).1, by decide⟩

/-- C6 fails as stated. With 65536 images of 1 x 1 the count field of the
header is 0, not 65536, while 65536 directory entries are written. -/
theorem C6_counterexample :
    List.replicate 65536 (squareImage 1 1) ≠ []
    ∧ (∀ img ∈ List.replicate 65536 (squareImage 1 1), img.Dx ≤ 255 ∧ img.Dy ≤ 255)
    ∧ (List.replicate 65536 (squareImage 1 1)).length = 65536
    ∧ (readIcondir (encodeIco rawEncode (List.replicate 65536 (squareImage 1 1)))).numImages = 0
    ∧ (readIcondir (encodeIco rawEncode (List.replicate 65536 (squareImage 1 1)))).numImages
        ≠ (List.replicate 65536 (squareImage 1 1)).length
    ∧ (runLoop rawEncode 65536 (List.replicate 65536 (squareImage 1 1))).buf.length
        = 6 + 16 * 65536 := by
  refine ⟨?_, ?_, List.length_replicate _ _, ?_, ?_, ?_⟩
  · intro h
    have := congrArg List.length h
    rw [List.length_replicate] at this
    exact absurd this (by decide)
  · intro img himg
    rw [List.eq_of_mem_replicate himg]
    exact ⟨by decide, by decide⟩
  · rw [readIcondir_encodeIco, List.length_replicate]
  · rw [readIcondir_encodeIco, List.length_replicate]
    decide
  · rw [runLoop_buf, List.length_append, writeIcondir_length, writeEntries_length,
      dirEntries_length, List.length_replicate]

/-- C6, amended. For every sequence of `N` images with `N ≤ 65535` (the count
field is 16 bits wide), the header of the written file has count `N`, type 1
and reserved 0, and the number of directory entries written is that count: the
directory buffer is 6 bytes plus 16 bytes per counted entry. -/
theorem C6_header_count (pngEncode : Image → EncodeResult) (imgs : List Image)
    (hN : imgs.length < 65536) :
    (readIcondir (encodeIco pngEncode imgs)).numImages = imgs.length
    ∧ (readIcondir (encodeIco pngEncode imgs)).imageType = 1
    ∧ (readIcondir (encodeIco pngEncode imgs)).reserved = 0
    ∧ (runLoop pngEncode imgs.length imgs).buf.length
        = 6 + 16 * (readIcondir (encodeIco pngEncode imgs)).numImages
    ∧ (runLoop pngEncode imgs.length imgs).buf
        = (encodeIco pngEncode imgs).take
            (6 + 16 * (readIcondir (encodeIco pngEncode imgs)).numImages) := by
  rw [readIcondir_encodeIco]
  have hmod : imgs.length % 65536 = imgs.length := Nat.mod_eq_of_lt hN
  have hlen : (runLoop pngEncode imgs.length imgs).buf.length = 6 + 16 * imgs.length := by
    rw [runLoop_buf, List.length_append, writeIcondir_length, writeEntries_length,
      dirEntries_length]
  refine ⟨hmod, rfl, rfl, ?_, ?_⟩
  · simp only [hmod, hlen]
  · simp only [hmod]
    unfold encodeIco
    exact (List.take_left' hlen).symm

/-- Witness of C6: two images give the header count 2. -/
theorem C6_header_count_witness :
    [squareImage 16 150, squareImage 32 400].length < 65536
    ∧ (readIcondir (encodeIco rawEncode [squareImage 16 150, squareImage 32 400])).numImages = 2 :=
  ⟨by decide, (C6_header_count rawEncode [squareImage 16 150, squareImage 32 400] (by decide)).1⟩

theorem payloadTotal_take_length (pngEncode : Image → EncodeResult) (imgs : List Image) :
    payloadTotal pngEncode (imgs.take imgs.length) = payloadTotal pngEncode imgs := by
  rw [List.take_length]

theorem sizeSum_encodeIco (pngEncode : Image → EncodeResult) (imgs : List Image)
    (htotal : payloadTotal pngEncode imgs < 4294967296) (k : Nat) (hk : k ≤ imgs.length) :
    sizeSum (encodeIco pngEncode imgs) k = payloadTotal pngEncode (imgs.take k) := by
  induction k with
  | zero => simp [sizeSum, payloadTotal]
  | succ j ih =>
    have hj : imgs[j]? = some (imgs[j]) := List.getElem?_eq_getElem (by omega)
    have hle := payloadTotal_take_le pngEncode imgs (j + 1)
    rw [sizeSum, ih (by omega), entryAt_encodeIco pngEncode imgs j _ hj,
      payloadTotal_take_succ pngEncode imgs j _ hj]
    rw [payloadTotal_take_succ pngEncode imgs j _ hj] at hle
    simp only [entryFor, uint32]
    omega

theorem single_image_length (s len : Nat) :
    (encodeIco rawEncode [squareImage s len]).length = 22 + len := by
  rw [encodeIco_length]
  simp only [payloadTotal, payloadLen_rawEncode, List.length_cons, List.length_nil]
  omega

theorem single_image_sizeSum (s len : Nat) :
    sizeSum (encodeIco rawEncode [squareImage s len]) 1 = len % 4294967296 := by
  rw [sizeSum, sizeSum,
    entryAt_encodeIco rawEncode _ 0 (squareImage s len) (List.getElem?_cons_zero ..)]
  simp only [entryFor, payloadLen_rawEncode, uint32]
  omega

theorem single_image_mismatch (s len : Nat) (h : 4294967296 ≤ len) :
    (encodeIco rawEncode [squareImage s len]).length
      ≠ 6 + [squareImage s len].length * 16
          + sizeSum (encodeIco rawEncode [squareImage s len]) [squareImage s len].length := by
  have h1 : [squareImage s len].length = 1 := rfl
  rw [h1, single_image_length, single_image_sizeSum]
  omega

/-- C5 fails as stated. One image whose payload is 2^32 bytes long gives a
file of `22 + 2^32` bytes whose only size field is 0, so the length is not
`6 + 16 + size`. -/
theorem C5_counterexample :
    (encodeIco rawEncode [squareImage 1 4294967296]).length = 4294967318
    ∧ sizeSum (encodeIco rawEncode [squareImage 1 4294967296]) 1 = 0
    ∧ (encodeIco rawEncode [squareImage 1 4294967296]).length
        ≠ 6 + [squareImage 1 4294967296].length * 16
            + sizeSum (encodeIco rawEncode [squareImage 1 4294967296])
                [squareImage 1 4294967296].length :=
  ⟨single_image_length 1 4294967296, single_image_sizeSum 1 4294967296,
    single_image_mismatch 1 4294967296 (Nat.le_refl _)⟩

/-- C5, amended. For every sequence of `N` images whose written file is shorter
than 2^32 bytes, the length of the file is `6 + N * 16` plus the sum of the
size fields of its `N` entries; and when `N ≥ 1`, the first offset field plus
that sum is the length of the file, and the last entry's offset plus size is
the length of the file. -/
theorem C5_total_length (pngEncode : Image → EncodeResult) (imgs : List Image)
    (htotal : (encodeIco pngEncode imgs).length < 4294967296) :
    (encodeIco pngEncode imgs).length
        = 6 + imgs.length * 16 + sizeSum (encodeIco pngEncode imgs) imgs.length
    ∧ (imgs ≠ [] →
        (entryAt (encodeIco pngEncode imgs) 0).offset
            + sizeSum (encodeIco pngEncode imgs) imgs.length
          = (encodeIco pngEncode imgs).length
        ∧ (entryAt (encodeIco pngEncode imgs) (imgs.length - 1)).offset
            + (entryAt (encodeIco pngEncode imgs) (imgs.length - 1)).sizeInBytes
          = (encodeIco pngEncode imgs).length) := by
  have hlen := encodeIco_length pngEncode imgs
  have hpt : payloadTotal pngEncode imgs < 4294967296 := by omega
  have hsum := sizeSum_encodeIco pngEncode imgs hpt imgs.length (Nat.le_refl _)
  rw [payloadTotal_take_length] at hsum
  refine ⟨by omega, ?_⟩
  intro hne
  have hpos : 0 < imgs.length := List.length_pos.mpr hne
  constructor
  · rw [first_offset_field pngEncode imgs hne, hsum, hlen]
    simp only [uint32]
    omega
  · have hl : imgs[imgs.length - 1]? = some (imgs[imgs.length - 1]) :=
      List.getElem?_eq_getElem (by omega)
    have hsucc := payloadTotal_take_succ pngEncode imgs (imgs.length - 1) _ hl
    rw [Nat.sub_add_cancel hpos, payloadTotal_take_length] at hsucc
    rw [entryAt_encodeIco pngEncode imgs _ _ hl, hlen]
    simp only [entryFor, uint32]
    omega

/-- Witness of C5: the two-image scenario, 588 = 6 + 32 + 150 + 400. -/
theorem C5_total_length_witness :
    (encodeIco rawEncode [squareImage 16 150, squareImage 32 400]).length < 4294967296
    ∧ (encodeIco rawEncode [squareImage 16 150, squareImage 32 400]).length
        = 6 + [squareImage 16 150, squareImage 32 400].length * 16
            + sizeSum (encodeIco rawEncode [squareImage 16 150, squareImage 32 400])
                [squareImage 16 150, squareImage 32 400].length
    ∧ (encodeIco rawEncode [squareImage 16 150, squareImage 32 400]).length = 588 :=
  have hlen : (encodeIco rawEncode [squareImage 16 150, squareImage 32 400]).length = 588 := by
    rw [encodeIco_length]
    simp only [payloadTotal, payloadLen_rawEncode, List.length_cons, List.length_nil]
  have hlt : (encodeIco rawEncode [squareImage 16 150, squareImage 32 400]).length
      < 4294967296 := by rw [hlen]; decide
  ⟨hlt, (C5_total_length rawEncode [squareImage 16 150, squareImage 32 400] hlt).1, hlen⟩

theorem loopWithFiles_ok (env : Env) (n : Nat) (paths : List String) (imgs : List Image)
    (st : LoopState) (hread : paths.map env.readPng = imgs.map Except.ok) :
    loopWithFiles env n paths st = .ok (imgs.foldl (loopBody env.pngEncode n) st) := by
  induction paths generalizing imgs st with
  | nil =>
    cases imgs with
    | nil => rfl
    | cons a rest => simp at hread
  | cons p rest ih =>
    cases imgs with
    | nil => simp at hread
    | cons a more =>
      simp only [List.map_cons, List.cons.injEq] at hread
      rw [loopWithFiles, hread.1]
      exact ih more _ hread.2

theorem icoSection_ok (env : Env) (order : List (Nat × String)) (imgs : List Image)
    (hlen : order.length = iconPath.length)
    (hread : (order.map Prod.snd).map env.readPng = imgs.map Except.ok)
    (hcreate : env.createErr = none) :
    icoSection env order
      = { panicked := env.closeErr, icoFile := some (encodeIco env.pngEncode imgs) } := by
  have hn : imgs.length = iconPath.length := by
    have := congrArg List.length hread
    simp only [List.length_map] at this
    omega
  unfold icoSection
  rw [loopWithFiles_ok env _ _ imgs _ hread]
  simp only [hcreate]
  unfold encodeIco runLoop
  rw [hn]

/-- C7 fails as stated. Go fixes no iteration order for a map; when
`range iconPath` yields the table in the reverse of the order it is written in,
the first directory entry is the one of the 256-pixel image (width byte 0), not
of the 16-pixel image, and the last one is the one of the 16-pixel image. -/
theorem C7_counterexample :
    IterationOrder iconPath.reverse
    ∧ (icoSection sampleEnv iconPath.reverse).panicked = none
    ∧ (icoSection sampleEnv iconPath.reverse).icoFile.map
        (fun f => decodeDim (entryAt f 0).imageWidth) = some 256
    ∧ (icoSection sampleEnv iconPath.reverse).icoFile.map
        (fun f => decodeDim (entryAt f 0).imageWidth) ≠ some 16
    ∧ (icoSection sampleEnv iconPath.reverse).icoFile.map
        (fun f => decodeDim (entryAt f 7).imageWidth) = some 16 :=
  ⟨List.reverse_perm iconPath, by decide, by decide, by decide, by decide⟩

/-- C7, amended. On every run in which the eight files are read and the output
file is created, the directory entries and the payloads are in one and the same
order, the order in which `range iconPath` yields the table: this is some
arrangement of the sizes 16, 24, 32, 48, 64, 96, 128, 256, each once, and entry
`i` and payload `i` belong to the image read from the `i`-th directory yielded. -/
theorem C7_iteration_order (env : Env) (order : List (Nat × String)) (imgs : List Image)
    (horder : IterationOrder order)
    (hread : (order.map Prod.snd).map env.readPng = imgs.map Except.ok)
    (hcreate : env.createErr = none) :
    (icoSection env order).icoFile = some (encodeIco env.pngEncode imgs)
    ∧ (order.map Prod.fst).Perm [16, 24, 32, 48, 64, 96, 128, 256]
    ∧ imgs.length = 8
    ∧ ∀ (i : Nat) (p : Nat × String) (img : Image),
        order[i]? = some p → env.readPng p.2 = .ok img →
          (entryAt (encodeIco env.pngEncode imgs) i).imageWidth = uint8 img.Dx
          ∧ (entryAt (encodeIco env.pngEncode imgs) i).imageHeight = uint8 img.Dy
          ∧ (entryAt (encodeIco env.pngEncode imgs) i).sizeInBytes
              = uint32 (env.pngEncode img).written.length
          ∧ (entryAt (encodeIco env.pngEncode imgs) i).offset
              = uint32 (payloadStart env.pngEncode imgs i)
          ∧ ((encodeIco env.pngEncode imgs).drop (payloadStart env.pngEncode imgs i)).take
                (env.pngEncode img).written.length
              = (env.pngEncode img).written := by
  have hlen : order.length = iconPath.length := List.Perm.length_eq horder
  have hn : imgs.length = 8 := by
    have := congrArg List.length hread
    simp only [List.length_map] at this
    rw [← this, hlen]
    rfl
  refine ⟨?_, ?_, hn, ?_⟩
  · rw [icoSection_ok env order imgs hlen hread hcreate]
  · exact List.Perm.map Prod.fst horder
  · intro i p img hp hr
    have hget : imgs[i]? = some img := by
      have h1 := congrArg (fun l => l[i]?) hread
      simp only [List.getElem?_map, hp, Option.map_some'] at h1
      rw [hr] at h1
      cases hi : imgs[i]? with
      | none => rw [hi] at h1; simp at h1
      | some a =>
        rw [hi] at h1
        simp only [Option.map_some', Option.some.injEq, Except.ok.injEq] at h1
        rw [h1]
    rw [entryAt_encodeIco env.pngEncode imgs i img hget]
    exact ⟨rfl, rfl, rfl, rfl, encodeIco_payload env.pngEncode imgs i img hget⟩

/-- Witness of C7: with every file present, the reverse order of the table is
an iteration order, and the file written is the container of the eight images
taken in that order. -/
theorem C7_iteration_order_witness :
    IterationOrder iconPath.reverse
    ∧ (iconPath.reverse.map Prod.snd).map sampleEnv.readPng
        = ([256, 128, 96, 64, 48, 32, 24, 16].map (fun s => squareImage s 2)).map Except.ok
    ∧ sampleEnv.createErr = none
    ∧ (icoSection sampleEnv iconPath.reverse).icoFile
        = some (encodeIco sampleEnv.pngEncode
            ([256, 128, 96, 64, 48, 32, 24, 16].map (fun s => squareImage s 2))) :=
  ⟨List.reverse_perm iconPath, rfl, rfl,
    (C7_iteration_order sampleEnv iconPath.reverse
      ([256, 128, 96, 64, 48, 32, 24, 16].map (fun s => squareImage s 2))
      (List.reverse_perm iconPath) rfl rfl).1⟩

end PngConvert
